import Mathlib

/-!
Verification of the transducer power-ramp controller (src/code.py).

The source is a small Python program: `TransducerController` holds the power
envelope constants `MIN_POWER = 50`, `MAX_POWER = 5000`, the mutable fields
`current_power`, `target_power`, `is_running` and a `threading.Event` named
`stop_event`.  `simulate_transducer_operation` ramps `current_power` from 0
toward `target_power` in fixed increments of 10, clamping at the target,
printing a progress line each step and checking the stop event once per
iteration.  `stop_transducer` reports the final power and whether the target
was reached; `emergency_stop` sets the stop event and calls
`stop_transducer`; `run` loops over cycles, clearing the stop event at the
start of each cycle.

Power values are embedded as rationals (the source works with Python floats,
but every value the program actually computes is an exact multiple of 10 or
the exact user target, so rational arithmetic is faithful).  The stop event,
read once per loop iteration, is embedded as the stream `sig : ℕ → Bool` of
values returned by successive `stop_event.is_set()` reads; the loop is
embedded fuel-indexed, with `fuelFor` fuel proved sufficient below.
-/

/-- The controller state created by `TransducerController.__init__`
(src/code.py lines 12-18).  `stop_event` models the boolean state of the
`threading.Event`. -/
structure TransducerController where
  MIN_POWER : ℚ
  MAX_POWER : ℚ
  current_power : ℚ
  target_power : ℚ
  is_running : Bool
  stop_event : Bool
  deriving DecidableEq

/-- The field values assigned in `__init__` (lines 13-18). -/
def TransducerController.init : TransducerController :=
  { MIN_POWER := 50, MAX_POWER := 5000, current_power := 0, target_power := 0,
    is_running := false, stop_event := false }

/-- `validate_power_setting` (lines 20-22): returns
`self.MIN_POWER <= power <= self.MAX_POWER`.  Embedded in state-passing style
to make the absence of state mutation a provable statement: the second
component is the controller state after the call. -/
def validate_power_setting (c : TransducerController) (power : ℚ) :
    Bool × TransducerController :=
  (decide (c.MIN_POWER ≤ power ∧ power ≤ c.MAX_POWER), c)

/-- `stop_transducer` (lines 74-80): sets `is_running = False`; the prints
only read `current_power` and `target_power`. -/
def stop_transducer (c : TransducerController) : TransducerController :=
  { c with is_running := false }

/-- `emergency_stop` (lines 82-86): `self.stop_event.set()` followed by
`self.stop_transducer()`. -/
def emergency_stop (c : TransducerController) : TransducerController :=
  stop_transducer { c with stop_event := true }

/-- `power_increment = 10` (line 50). -/
def power_increment : ℚ := 10

/-- Result of one execution of the ramp loop (lines 56-69):
`progress` is the list of `current_power` values printed by the progress
line (line 67), in order; `final` is `current_power` on loop exit; `checks`
is the number of the next unperformed `stop_event.is_set()` read (the loop
read observations `0, ..., checks - 1` or broke at observation `checks`);
`brokeOnSignal` records whether the loop exited through the `break` at
line 58. -/
structure RunResult where
  progress : List ℚ
  final : ℚ
  checks : ℕ
  brokeOnSignal : Bool
  deriving DecidableEq

/-- The `while` loop of `simulate_transducer_operation` (lines 56-69),
fuel-indexed.  `running` mirrors `self.is_running` (set to `True` at line 54
and never written inside the loop); `cur` mirrors `self.current_power`;
`i` indexes the next `stop_event.is_set()` observation.  The body mirrors
the source line by line: increment by `power_increment`, clamp with
`if self.current_power > self.target_power`, record the progress print. -/
def rampLoop (t : ℚ) (sig : ℕ → Bool) : ℕ → Bool → ℚ → ℕ → RunResult
  | 0, _, cur, i => ⟨[], cur, i, false⟩
  | fuel+1, running, cur, i =>
    if running = true ∧ cur < t then
      if sig i = true then ⟨[], cur, i, true⟩
      else
        let c1 := cur + power_increment
        let c2 := if t < c1 then t else c1
        let r := rampLoop t sig fuel running c2 (i+1)
        ⟨c2 :: r.progress, r.final, r.checks, r.brokeOnSignal⟩
    else ⟨[], cur, i, false⟩

/-- Fuel sufficient for target `t`: one loop iteration raises `cur` by 10
until it reaches `t`, so `t.num.toNat` iterations always suffice, plus one
for the final condition check. -/
def fuelFor (t : ℚ) : ℕ := t.num.toNat + 1

/-- `simulate_transducer_operation` (lines 43-72) restricted to its ramp
behaviour: `current_power` starts at 0 (line 53), `is_running` is `True`
(line 54), then the loop runs. -/
def simulate_transducer_operation (t : ℚ) (sig : ℕ → Bool) : RunResult :=
  rampLoop t sig (fuelFor t) true 0 0

/-- The terminal outcome of one run: `stop_transducer` (lines 77-79) reports
the final power and `current_power >= target_power`. -/
def stop_transducer_report (t cur : ℚ) : ℚ × Bool := (cur, decide (t ≤ cur))

/-- The spec's CycleOutcome record. -/
structure CycleOutcome where
  final_power : ℚ
  reached_target : Bool
  interrupted : Bool
  deriving DecidableEq

/-- Modelled from the spec: the source's `stop_transducer` (lines 74-80)
reports only the final power and whether the target was reached; the spec's
CycleOutcome additionally carries `interrupted = signal.is_set()` read at
outcome production (spec section 4.2 step 3), a read the source never
stores.  That read is the next observation of the signal stream, at index
`checks`. -/
def cycleOutcome (t : ℚ) (sig : ℕ → Bool) : CycleOutcome :=
  let r := simulate_transducer_operation t sig
  { final_power := (stop_transducer_report t r.final).1
    reached_target := (stop_transducer_report t r.final).2
    interrupted := sig r.checks }

/-- Object identity of `threading.Event` allocations.  `__init__`
(line 18) performs the only `threading.Event()` allocation of the program;
`eventId` records which allocation a signal value belongs to. -/
structure SignalState where
  eventId : ℕ
  isSet : Bool
  deriving DecidableEq

/-- The event allocated at line 18. -/
def initEvent : SignalState := ⟨0, false⟩

/-- `stop_event.clear()` (line 99): clears the flag of the same object. -/
def eventClear (s : SignalState) : SignalState := ⟨s.eventId, false⟩

/-- `stop_event.set()` (line 85): sets the flag of the same object. -/
def eventSet (s : SignalState) : SignalState := ⟨s.eventId, true⟩

/-- State of `self.stop_event` at the start of cycle `n` of `run`
(lines 96-118), right after the `clear()` at line 99.  `setDuring n` says
whether `emergency_stop` set the event during cycle `n`.  No cycle
allocates a new event: the loop body only ever calls `clear()` on the
event allocated in `__init__`. -/
def signalAtCycleStart (setDuring : ℕ → Bool) : ℕ → SignalState
  | 0 => eventClear initEvent
  | n+1 => eventClear (if setDuring n then eventSet (signalAtCycleStart setDuring n)
      else signalAtCycleStart setDuring n)

lemma rampLoop_zero (t : ℚ) (sig : ℕ → Bool) (running : Bool) (cur : ℚ) (i : ℕ) :
    rampLoop t sig 0 running cur i = ⟨[], cur, i, false⟩ := rfl

lemma rampLoop_succ (t : ℚ) (sig : ℕ → Bool) (fuel : ℕ) (running : Bool) (cur : ℚ) (i : ℕ) :
    rampLoop t sig (fuel+1) running cur i =
      if running = true ∧ cur < t then
        if sig i = true then ⟨[], cur, i, true⟩
        else
          let c2 := if t < cur + power_increment then t else cur + power_increment
          let r := rampLoop t sig fuel running c2 (i+1)
          ⟨c2 :: r.progress, r.final, r.checks, r.brokeOnSignal⟩
      else ⟨[], cur, i, false⟩ := rfl

lemma power_increment_eq : power_increment = 10 := rfl

lemma clamp_eq_min (t a : ℚ) : (if t < a then t else a) = min a t := by
  by_cases h : t < a
  · rw [if_pos h, min_eq_right h.le]
  · rw [if_neg h, min_eq_left (not_lt.mp h)]

lemma rampLoop_exit {t cur : ℚ} (sig : ℕ → Bool) (fuel i : ℕ) (h : ¬ cur < t) :
    rampLoop t sig (fuel+1) true cur i = ⟨[], cur, i, false⟩ := by
  rw [rampLoop_succ, if_neg]
  intro hc
  exact h hc.2

lemma rampLoop_break {t cur : ℚ} {sig : ℕ → Bool} {i : ℕ} (fuel : ℕ)
    (hlt : cur < t) (hsig : sig i = true) :
    rampLoop t sig (fuel+1) true cur i = ⟨[], cur, i, true⟩ := by
  rw [rampLoop_succ, if_pos ⟨rfl, hlt⟩, if_pos hsig]

lemma rampLoop_step {t cur : ℚ} {sig : ℕ → Bool} {i : ℕ} (fuel : ℕ)
    (hlt : cur < t) (hsig : sig i = false) :
    rampLoop t sig (fuel+1) true cur i =
      ⟨min (cur + power_increment) t ::
          (rampLoop t sig fuel true (min (cur + power_increment) t) (i+1)).progress,
       (rampLoop t sig fuel true (min (cur + power_increment) t) (i+1)).final,
       (rampLoop t sig fuel true (min (cur + power_increment) t) (i+1)).checks,
       (rampLoop t sig fuel true (min (cur + power_increment) t) (i+1)).brokeOnSignal⟩ := by
  rw [rampLoop_succ, if_pos ⟨rfl, hlt⟩, if_neg (by simp [hsig])]
  simp only [clamp_eq_min]

lemma min_eq_of_lt {a t : ℚ} (h : min a t < t) : min a t = a := by
  rcases le_total a t with h' | h'
  · exact min_eq_left h'
  · rw [min_eq_right h'] at h
    exact absurd h (lt_irrefl t)

lemma cur_lt_step {t cur : ℚ} (hlt : cur < t) : cur < min (cur + power_increment) t := by
  rw [lt_min_iff]
  exact ⟨by rw [power_increment_eq]; linarith, hlt⟩

/-- Every value printed by the progress line is strictly above the power at
loop entry and never exceeds the target (the clamp at lines 63-64). -/
lemma mem_progress (t : ℚ) (sig : ℕ → Bool) :
    ∀ fuel (cur : ℚ) (i : ℕ) (x : ℚ),
      x ∈ (rampLoop t sig fuel true cur i).progress → cur < x ∧ x ≤ t := by
  intro fuel
  induction fuel with
  | zero => simp [rampLoop_zero]
  | succ fuel ih =>
    intro cur i x hx
    by_cases hlt : cur < t
    · by_cases hsig : sig i = true
      · rw [rampLoop_break fuel hlt hsig] at hx
        simp at hx
      · have hsig' : sig i = false := by revert hsig; cases sig i <;> simp
        rw [rampLoop_step fuel hlt hsig'] at hx
        simp only [List.mem_cons] at hx
        rcases hx with rfl | hx
        · exact ⟨cur_lt_step hlt, min_le_right _ _⟩
        · rcases ih _ _ _ hx with ⟨h1, h2⟩
          exact ⟨lt_trans (cur_lt_step hlt) h1, h2⟩
    · rw [rampLoop_exit sig fuel i hlt] at hx
      simp at hx

/-- The printed progress values are strictly increasing. -/
lemma chain_progress (t : ℚ) (sig : ℕ → Bool) :
    ∀ fuel (cur : ℚ) (i : ℕ),
      List.Chain' (fun a b => a < b) (rampLoop t sig fuel true cur i).progress := by
  intro fuel
  induction fuel with
  | zero => simp [rampLoop_zero]
  | succ fuel ih =>
    intro cur i
    by_cases hlt : cur < t
    · by_cases hsig : sig i = true
      · rw [rampLoop_break fuel hlt hsig]
        simp
      · have hsig' : sig i = false := by revert hsig; cases sig i <;> simp
        rw [rampLoop_step fuel hlt hsig']
        refine List.chain'_cons'.mpr ⟨?_, ih _ _⟩
        intro y hy
        exact (mem_progress t sig fuel _ _ y (List.mem_of_mem_head? hy)).1
    · rw [rampLoop_exit sig fuel i hlt]
      simp

/-- The final power stays inside [0, t] when it starts there. -/
lemma final_bounds (t : ℚ) (sig : ℕ → Bool) :
    ∀ fuel (cur : ℚ) (i : ℕ), 0 ≤ cur → cur ≤ t →
      0 ≤ (rampLoop t sig fuel true cur i).final ∧
        (rampLoop t sig fuel true cur i).final ≤ t := by
  intro fuel
  induction fuel with
  | zero =>
    intro cur i h0 ht
    rw [rampLoop_zero]
    exact ⟨h0, ht⟩
  | succ fuel ih =>
    intro cur i h0 ht
    by_cases hlt : cur < t
    · by_cases hsig : sig i = true
      · rw [rampLoop_break fuel hlt hsig]
        exact ⟨h0, ht⟩
      · have hsig' : sig i = false := by revert hsig; cases sig i <;> simp
        rw [rampLoop_step fuel hlt hsig']
        exact ih _ _ (le_of_lt (lt_of_le_of_lt h0 (cur_lt_step hlt))) (min_le_right _ _)
    · rw [rampLoop_exit sig fuel i hlt]
      exact ⟨h0, ht⟩

/-- One signal check per recorded progress value: the index of the exit
check equals the entry index plus the number of progress prints. -/
lemma checks_eq (t : ℚ) (sig : ℕ → Bool) :
    ∀ fuel (cur : ℚ) (i : ℕ),
      (rampLoop t sig fuel true cur i).checks =
        i + (rampLoop t sig fuel true cur i).progress.length := by
  intro fuel
  induction fuel with
  | zero =>
    intro cur i
    rw [rampLoop_zero]
    simp
  | succ fuel ih =>
    intro cur i
    by_cases hlt : cur < t
    · by_cases hsig : sig i = true
      · rw [rampLoop_break fuel hlt hsig]
        simp
      · have hsig' : sig i = false := by revert hsig; cases sig i <;> simp
        rw [rampLoop_step fuel hlt hsig']
        have := ih (min (cur + power_increment) t) (i+1)
        simp only [List.length_cons]
        omega
    · rw [rampLoop_exit sig fuel i hlt]
      simp

/-- With enough fuel the loop exits properly: either the target is reached
(the `while` condition fails) or the `break` at line 58 fired. -/
lemma loop_finished (t : ℚ) (sig : ℕ → Bool) :
    ∀ (fuel : ℕ) (cur : ℚ) (i : ℕ), t ≤ cur + power_increment * (fuel : ℚ) →
      t ≤ (rampLoop t sig (fuel+1) true cur i).final ∨
        (rampLoop t sig (fuel+1) true cur i).brokeOnSignal = true := by
  intro fuel
  induction fuel with
  | zero =>
    intro cur i hb
    have hb' : t ≤ cur := by push_cast at hb; linarith
    rw [rampLoop_exit sig 0 i (not_lt.mpr hb')]
    exact Or.inl hb'
  | succ fuel ih =>
    intro cur i hb
    by_cases hlt : cur < t
    · by_cases hsig : sig i = true
      · rw [rampLoop_break (fuel+1) hlt hsig]
        exact Or.inr rfl
      · have hsig' : sig i = false := by revert hsig; cases sig i <;> simp
        rw [rampLoop_step (fuel+1) hlt hsig']
        refine ih _ (i+1) ?_
        rcases le_or_lt t (cur + power_increment) with h | h
        · rw [min_eq_right h]
          have : (0:ℚ) ≤ power_increment * (fuel:ℚ) := by
            rw [power_increment_eq]
            positivity
          linarith
        · rw [min_eq_left h.le]
          rw [power_increment_eq] at hb ⊢
          push_cast at hb ⊢
          linarith
    · rw [rampLoop_exit sig (fuel+1) i hlt]
      exact Or.inl (not_lt.mp hlt)

/-- Extra fuel beyond sufficiency does not change the run: the loop's exit
is decided by the state, not by the fuel bound of the embedding. -/
lemma fuel_stable (t : ℚ) (sig : ℕ → Bool) :
    ∀ (fuel : ℕ) (cur : ℚ) (i g : ℕ), t ≤ cur + power_increment * (fuel : ℚ) →
      rampLoop t sig (fuel+1+g) true cur i = rampLoop t sig (fuel+1) true cur i := by
  intro fuel
  induction fuel with
  | zero =>
    intro cur i g hb
    have hb' : t ≤ cur := by push_cast at hb; linarith
    have h1 : 0+1+g = g+1 := by omega
    rw [h1, rampLoop_exit sig g i (not_lt.mpr hb'), rampLoop_exit sig 0 i (not_lt.mpr hb')]
  | succ fuel ih =>
    intro cur i g hb
    have h1 : fuel+1+1+g = (fuel+1+g)+1 := by omega
    rw [h1]
    by_cases hlt : cur < t
    · by_cases hsig : sig i = true
      · rw [rampLoop_break (fuel+1+g) hlt hsig, rampLoop_break (fuel+1) hlt hsig]
      · have hsig' : sig i = false := by revert hsig; cases sig i <;> simp
        rw [rampLoop_step (fuel+1+g) hlt hsig', rampLoop_step (fuel+1) hlt hsig']
        have hb2 : t ≤ min (cur + power_increment) t + power_increment * (fuel:ℚ) := by
          rcases le_or_lt t (cur + power_increment) with h | h
          · rw [min_eq_right h]
            have : (0:ℚ) ≤ power_increment * (fuel:ℚ) := by
              rw [power_increment_eq]
              positivity
            linarith
          · rw [min_eq_left h.le]
            rw [power_increment_eq] at hb ⊢
            push_cast at hb ⊢
            linarith
        rw [ih _ (i+1) g hb2]
    · rw [rampLoop_exit sig (fuel+1+g) i hlt, rampLoop_exit sig (fuel+1) i hlt]

/-- If the loop exited through the `break`, the signal read at the exit
index returned true and every earlier read of this run returned false:
the loop stops at the first observation of the signal. -/
lemma broke_sig (t : ℚ) (sig : ℕ → Bool) :
    ∀ fuel (cur : ℚ) (i : ℕ),
      (rampLoop t sig fuel true cur i).brokeOnSignal = true →
      sig (rampLoop t sig fuel true cur i).checks = true ∧
        ∀ j, i ≤ j → j < (rampLoop t sig fuel true cur i).checks → sig j = false := by
  intro fuel
  induction fuel with
  | zero =>
    intro cur i hb
    rw [rampLoop_zero] at hb
    simp at hb
  | succ fuel ih =>
    intro cur i hb
    by_cases hlt : cur < t
    · by_cases hsig : sig i = true
      · rw [rampLoop_break fuel hlt hsig] at hb ⊢
        dsimp only at hb ⊢
        refine ⟨hsig, ?_⟩
        intro j h1 h2
        omega
      · have hsig' : sig i = false := by revert hsig; cases sig i <;> simp
        rw [rampLoop_step fuel hlt hsig'] at hb ⊢
        dsimp only at hb ⊢
        rcases ih _ (i+1) hb with ⟨ha, hf⟩
        refine ⟨ha, ?_⟩
        intro j h1 h2
        rcases Nat.eq_or_lt_of_le h1 with rfl | h1'
        · exact hsig'
        · exact hf j h1' h2
    · rw [rampLoop_exit sig fuel i hlt] at hb
      simp at hb

/-- Starting from the reachable state (min (step * i) t, i), if the first
true signal observation is index k and every check before it happens below
target (the signal arrives strictly before the final step), the loop runs
exactly to check k and breaks there: final power step * k, k increments. -/
lemma run_break (t : ℚ) (sig : ℕ → Bool) (k : ℕ)
    (hk : sig k = true) (hfirst : ∀ j, j < k → sig j = false)
    (hdur : ∀ j, j < k → power_increment * (j:ℚ) < t)
    (hcase : power_increment * (k:ℚ) < t) :
    ∀ (d i fuel : ℕ), i + d = k → d < fuel →
      (rampLoop t sig fuel true (min (power_increment * (i:ℚ)) t) i).final
          = power_increment * (k:ℚ) ∧
      (rampLoop t sig fuel true (min (power_increment * (i:ℚ)) t) i).checks = k ∧
      (rampLoop t sig fuel true (min (power_increment * (i:ℚ)) t) i).brokeOnSignal = true ∧
      (rampLoop t sig fuel true (min (power_increment * (i:ℚ)) t) i).progress.length = d := by
  intro d
  induction d with
  | zero =>
    intro i fuel hik hf
    obtain ⟨f, rfl⟩ : ∃ f, fuel = f + 1 := ⟨fuel - 1, by omega⟩
    obtain rfl : i = k := by omega
    rw [min_eq_left hcase.le, rampLoop_break f hcase hk]
    exact ⟨rfl, rfl, rfl, rfl⟩
  | succ d ihd =>
    intro i fuel hik hf
    obtain ⟨f, rfl⟩ : ∃ f, fuel = f + 1 := ⟨fuel - 1, by omega⟩
    have hik' : i < k := by omega
    have hlt : power_increment * (i:ℚ) < t := hdur i hik'
    have hsig : sig i = false := hfirst i hik'
    rw [min_eq_left hlt.le, rampLoop_step f hlt hsig]
    have hshift : power_increment * (i:ℚ) + power_increment
        = power_increment * (((i+1):ℕ):ℚ) := by
      rw [power_increment_eq]
      push_cast
      ring
    rw [hshift]
    have hrec := ihd (i+1) f (by omega) (by omega)
    dsimp only
    exact ⟨hrec.1, hrec.2.1, hrec.2.2.1, by simp only [List.length_cons, hrec.2.2.2]⟩

/-- Starting from the reachable state (min (step * i) t, i), if every signal
check strictly before index k returns false and happens below target while
check k is the first at-or-above-target check, the loop completes normally:
final power exactly t, exit at check k, one progress print per step. -/
lemma run_complete (t : ℚ) (sig : ℕ → Bool) (k : ℕ)
    (hfirst : ∀ j, j < k → sig j = false)
    (hdur : ∀ j, j < k → power_increment * (j:ℚ) < t)
    (hcase : t ≤ power_increment * (k:ℚ)) :
    ∀ (d i fuel : ℕ), i + d = k → d < fuel →
      (rampLoop t sig fuel true (min (power_increment * (i:ℚ)) t) i).final = t ∧
      (rampLoop t sig fuel true (min (power_increment * (i:ℚ)) t) i).checks = k ∧
      (rampLoop t sig fuel true (min (power_increment * (i:ℚ)) t) i).brokeOnSignal = false ∧
      (rampLoop t sig fuel true (min (power_increment * (i:ℚ)) t) i).progress.length = d := by
  intro d
  induction d with
  | zero =>
    intro i fuel hik hf
    obtain ⟨f, rfl⟩ : ∃ f, fuel = f + 1 := ⟨fuel - 1, by omega⟩
    obtain rfl : i = k := by omega
    rw [min_eq_right hcase, rampLoop_exit sig f i (lt_irrefl t)]
    exact ⟨rfl, rfl, rfl, rfl⟩
  | succ d ihd =>
    intro i fuel hik hf
    obtain ⟨f, rfl⟩ : ∃ f, fuel = f + 1 := ⟨fuel - 1, by omega⟩
    have hik' : i < k := by omega
    have hlt : power_increment * (i:ℚ) < t := hdur i hik'
    have hsig : sig i = false := hfirst i hik'
    rw [min_eq_left hlt.le, rampLoop_step f hlt hsig]
    have hshift : power_increment * (i:ℚ) + power_increment
        = power_increment * (((i+1):ℕ):ℚ) := by
      rw [power_increment_eq]
      push_cast
      ring
    rw [hshift]
    have hrec := ihd (i+1) f (by omega) (by omega)
    dsimp only
    exact ⟨hrec.1, hrec.2.1, hrec.2.2.1, by simp only [List.length_cons, hrec.2.2.2]⟩

/-- Closed form of every progress print: the j-th print (0-indexed) of a
run entered at state (min (step * i) t, i) shows min (step * (i+j+1)) t,
for every signal stream. -/
lemma get_progress (t : ℚ) (sig : ℕ → Bool) :
    ∀ (fuel i j : ℕ),
      j < (rampLoop t sig fuel true (min (power_increment * (i:ℚ)) t) i).progress.length →
      (rampLoop t sig fuel true (min (power_increment * (i:ℚ)) t) i).progress[j]? =
        some (min (power_increment * (((i+j+1):ℕ):ℚ)) t) := by
  intro fuel
  induction fuel with
  | zero =>
    intro i j hj
    rw [rampLoop_zero] at hj
    simp at hj
  | succ fuel ih =>
    intro i j hj
    by_cases hlt : min (power_increment * (i:ℚ)) t < t
    · have hmin : min (power_increment * (i:ℚ)) t = power_increment * (i:ℚ) :=
        min_eq_of_lt hlt
      have hlt' : power_increment * (i:ℚ) < t := hmin ▸ hlt
      rw [hmin] at hj ⊢
      by_cases hsig : sig i = true
      · rw [rampLoop_break fuel hlt' hsig] at hj
        simp at hj
      · have hsig' : sig i = false := by revert hsig; cases sig i <;> simp
        rw [rampLoop_step fuel hlt' hsig'] at hj ⊢
        have hshift : power_increment * (i:ℚ) + power_increment
            = power_increment * (((i+1):ℕ):ℚ) := by
          rw [power_increment_eq]
          push_cast
          ring
        rw [hshift] at hj ⊢
        dsimp only at hj ⊢
        cases j with
        | zero =>
          simp only [List.getElem?_cons_zero, Option.some.injEq]
        | succ j =>
          simp only [List.getElem?_cons_succ]
          simp only [List.length_cons, Nat.add_lt_add_iff_right] at hj
          have harith : i + (j+1) + 1 = (i+1) + j + 1 := by omega
          rw [harith]
          exact ih (i+1) j hj
    · rw [rampLoop_exit sig fuel i hlt] at hj
      simp at hj

/-- A run that broke on the signal never got clamped: its final power is
the step size times the number of increments performed. -/
lemma broke_final (t : ℚ) (sig : ℕ → Bool) :
    ∀ (fuel i : ℕ),
      (rampLoop t sig fuel true (min (power_increment * (i:ℚ)) t) i).brokeOnSignal = true →
      (rampLoop t sig fuel true (min (power_increment * (i:ℚ)) t) i).final =
        power_increment *
          (((rampLoop t sig fuel true (min (power_increment * (i:ℚ)) t) i).checks : ℕ) : ℚ) := by
  intro fuel
  induction fuel with
  | zero =>
    intro i hb
    rw [rampLoop_zero] at hb
    simp at hb
  | succ fuel ih =>
    intro i hb
    by_cases hlt : min (power_increment * (i:ℚ)) t < t
    · have hmin : min (power_increment * (i:ℚ)) t = power_increment * (i:ℚ) :=
        min_eq_of_lt hlt
      have hlt' : power_increment * (i:ℚ) < t := hmin ▸ hlt
      rw [hmin] at hb ⊢
      by_cases hsig : sig i = true
      · rw [rampLoop_break fuel hlt' hsig]
      · have hsig' : sig i = false := by revert hsig; cases sig i <;> simp
        rw [rampLoop_step fuel hlt' hsig'] at hb ⊢
        have hshift : power_increment * (i:ℚ) + power_increment
            = power_increment * (((i+1):ℕ):ℚ) := by
          rw [power_increment_eq]
          push_cast
          ring
        rw [hshift] at hb ⊢
        dsimp only at hb ⊢
        exact ih (i+1) hb
    · rw [rampLoop_exit sig fuel i hlt] at hb
      simp at hb

/-- A nonnegative rational is at most its numerator (as a natural number). -/
lemma le_num_toNat (t : ℚ) (h0 : 0 ≤ t) : t ≤ ((t.num.toNat : ℕ) : ℚ) := by
  have hnum : (0:ℤ) ≤ t.num := Rat.num_nonneg.mpr h0
  have hden : (1:ℚ) ≤ (t.den : ℚ) := by exact_mod_cast t.den_pos
  have heq : ((t.num : ℤ) : ℚ) = ((t.num.toNat : ℕ) : ℚ) := by
    exact_mod_cast (Int.toNat_of_nonneg hnum).symm
  calc t = ((t.num : ℤ) : ℚ) / ((t.den : ℕ) : ℚ) := (Rat.num_div_den t).symm
    _ ≤ ((t.num : ℤ) : ℚ) := div_le_self (by exact_mod_cast hnum) hden
    _ = ((t.num.toNat : ℕ) : ℚ) := heq

/-- The fuel `fuelFor` always suffices: `t ≤ step * (fuelFor t - 1)`. -/
lemma target_le_fuel_bound (t : ℚ) : t ≤ power_increment * ((t.num.toNat : ℕ) : ℚ) := by
  rw [power_increment_eq]
  rcases le_or_lt 0 t with h0 | h0
  · have h1 := le_num_toNat t h0
    have h2 : (0:ℚ) ≤ ((t.num.toNat : ℕ) : ℚ) := Nat.cast_nonneg _
    linarith
  · have : (0:ℚ) ≤ 10 * ((t.num.toNat : ℕ) : ℚ) := by positivity
    linarith

/-- Check index ⌈t/10⌉ is at or above target. -/
lemma ceil_bound_le (t : ℚ) : t ≤ power_increment * ((⌈t / 10⌉₊ : ℕ) : ℚ) := by
  rw [power_increment_eq]
  have h := Nat.le_ceil (t / 10)
  rw [div_le_iff₀ (by norm_num : (0:ℚ) < 10)] at h
  linarith

/-- Every check index strictly below ⌈t/10⌉ is below target. -/
lemma lt_of_lt_ceil (t : ℚ) (j : ℕ) (hj : j < ⌈t / 10⌉₊) :
    power_increment * (j:ℚ) < t := by
  rw [power_increment_eq]
  have h := Nat.lt_ceil.mp hj
  rw [lt_div_iff₀ (by norm_num : (0:ℚ) < 10)] at h
  linarith

/-- The uninterrupted step count fits below the fuel bound. -/
lemma ceil_le_num (t : ℚ) (h0 : 0 ≤ t) : ⌈t / 10⌉₊ ≤ t.num.toNat := by
  rw [Nat.ceil_le]
  calc t / 10 ≤ t := div_le_self h0 (by norm_num)
    _ ≤ ((t.num.toNat : ℕ) : ℚ) := le_num_toNat t h0


lemma signalAtCycleStart_zero (setDuring : ℕ → Bool) :
    signalAtCycleStart setDuring 0 = eventClear initEvent := rfl

lemma signalAtCycleStart_succ (setDuring : ℕ → Bool) (n : ℕ) :
    signalAtCycleStart setDuring (n+1) =
      eventClear (if setDuring n then eventSet (signalAtCycleStart setDuring n)
        else signalAtCycleStart setDuring n) := rfl

/-- C5 counterexample: consecutive cycles share the StopSignal instance.
The only `threading.Event()` allocation is in `__init__` (line 18); the
cycle loop (line 99) merely clears that same object, so cycles 0 and 1 of
`run` use the event of the same allocation — here with the signal set
during every cycle. -/
theorem claim5_counterexample :
    (signalAtCycleStart (fun _ => true) 1).eventId =
      (signalAtCycleStart (fun _ => true) 0).eventId := by
  decide

/-- C5 amended: the source reuses a single StopSignal object across all
cycles instead of creating a fresh one per cycle; the `clear()` at each
cycle start still guarantees the behavioural half of the claim: whatever
was set during earlier cycles, every cycle begins with the signal unset,
and the object identity never changes from the one allocated in
`__init__`. -/
theorem claim5_reset_not_fresh (setDuring : ℕ → Bool) (n : ℕ) :
    (signalAtCycleStart setDuring n).isSet = false ∧
    (signalAtCycleStart setDuring n).eventId = initEvent.eventId := by
  constructor
  · cases n <;> rfl
  · induction n with
    | zero => rfl
    | succ n ih =>
      rw [signalAtCycleStart_succ]
      by_cases h : setDuring n = true
      · rw [if_pos h]
        exact ih
      · rw [if_neg h]
        exact ih

/-- C6: validate_power_setting(power) returns true iff
MIN_POWER <= power <= MAX_POWER, the constants being 50 and 5000 in the
controller built by __init__, and the call is pure: the controller state
after the call is the state before it. -/
theorem claim6_validate_pure_iff (c : TransducerController) (p : ℚ) :
    ((validate_power_setting c p).1 = true ↔ c.MIN_POWER ≤ p ∧ p ≤ c.MAX_POWER) ∧
    (validate_power_setting c p).2 = c ∧
    TransducerController.init.MIN_POWER = 50 ∧
    TransducerController.init.MAX_POWER = 5000 ∧
    ((validate_power_setting TransducerController.init p).1 = true ↔
      50 ≤ p ∧ p ≤ 5000) := by
  refine ⟨?_, rfl, rfl, rfl, ?_⟩
  · simp [validate_power_setting]
  · simp [validate_power_setting, TransducerController.init]

/-- C7: a run with target 0 exits at once: the loop body never runs, the
final power is 0 with zero progress prints, and the outcome reports
{final_power 0, reached_target true, interrupted false} provided the one
signal read at outcome time returns false. -/
theorem claim7_zero_target (sig : ℕ → Bool) (h : sig 0 = false) :
    simulate_transducer_operation 0 sig = ⟨[], 0, 0, false⟩ ∧
    cycleOutcome 0 sig = ⟨0, true, false⟩ := by
  have hrun : simulate_transducer_operation 0 sig = ⟨[], 0, 0, false⟩ := by
    norm_num [simulate_transducer_operation, fuelFor, rampLoop]
  refine ⟨hrun, ?_⟩
  simp [cycleOutcome, stop_transducer_report, hrun, h]

/-- Witness for C7 at the never-set signal. -/
theorem claim7_witness :
    simulate_transducer_operation 0 (fun _ => false) = ⟨[], 0, 0, false⟩ ∧
    cycleOutcome 0 (fun _ => false) = ⟨0, true, false⟩ :=
  claim7_zero_target (fun _ => false) rfl

/-- C8 counterexample: the foreground's emergency_stop (lines 82-86) does
not leave the running flag unchanged: besides setting the stop event it
also calls stop_transducer, clearing is_running, here on a controller in a
mid-run state. -/
theorem claim8_counterexample :
    (emergency_stop { TransducerController.init with is_running := true }).is_running ≠
      ({ TransducerController.init with is_running := true } :
        TransducerController).is_running := by
  decide

/-- C8 amended: the foreground's emergency_stop writes the stop signal
(once) and additionally clears the running flag via its stop_transducer
call; current power, target power and the envelope constants are left
unchanged, and stop_transducer itself never touches the signal. -/
theorem claim8_foreground_frame (c : TransducerController) :
    emergency_stop c = { c with stop_event := true, is_running := false } ∧
    (emergency_stop c).current_power = c.current_power ∧
    (emergency_stop c).target_power = c.target_power ∧
    (emergency_stop c).MIN_POWER = c.MIN_POWER ∧
    (emergency_stop c).MAX_POWER = c.MAX_POWER ∧
    (emergency_stop c).stop_event = true ∧
    (stop_transducer c).stop_event = c.stop_event :=
  ⟨rfl, rfl, rfl, rfl, rfl, rfl, rfl⟩

lemma min_zero_target {t : ℚ} (h0 : 0 ≤ t) :
    min (power_increment * ((0:ℕ):ℚ)) t = 0 := by
  rw [power_increment_eq]
  push_cast
  rw [mul_zero, min_eq_left h0]

lemma bound_from_zero (t : ℚ) :
    t ≤ 0 + power_increment * ((t.num.toNat : ℕ) : ℚ) := by
  have := target_le_fuel_bound t
  linarith

/-- C1: for every target t within the envelope [MIN_POWER, MAX_POWER] of
the controller built by __init__, a run whose stop signal is never set
terminates with final power exactly t, does not break on the signal, and
the outcome reports the target reached. -/
theorem claim1_uninterrupted_run (t : ℚ) (sig : ℕ → Bool)
    (h1 : TransducerController.init.MIN_POWER ≤ t)
    (_h2 : t ≤ TransducerController.init.MAX_POWER)
    (hs : ∀ j, sig j = false) :
    (simulate_transducer_operation t sig).final = t ∧
    (simulate_transducer_operation t sig).brokeOnSignal = false ∧
    (cycleOutcome t sig).final_power = t ∧
    (cycleOutcome t sig).reached_target = true := by
  have hmin : TransducerController.init.MIN_POWER = 50 := rfl
  have h0 : (0:ℚ) < t := by rw [hmin] at h1; linarith
  have hrc := run_complete t sig ⌈t/10⌉₊ (fun j _ => hs j)
      (fun j hj => lt_of_lt_ceil t j hj) (ceil_bound_le t) ⌈t/10⌉₊ 0 (fuelFor t)
      (by omega)
      (by have hcn := ceil_le_num t h0.le; simp only [fuelFor]; omega)
  rw [min_zero_target h0.le] at hrc
  have hfin : (simulate_transducer_operation t sig).final = t := hrc.1
  have hbk : (simulate_transducer_operation t sig).brokeOnSignal = false := hrc.2.2.1
  refine ⟨hfin, hbk, ?_, ?_⟩
  · simp [cycleOutcome, stop_transducer_report, hfin]
  · simp [cycleOutcome, stop_transducer_report, hfin]

/-- Witness for C1 at target 100 with the never-set signal. -/
theorem claim1_witness :
    (simulate_transducer_operation 100 (fun _ => false)).final = 100 ∧
    (simulate_transducer_operation 100 (fun _ => false)).brokeOnSignal = false ∧
    (cycleOutcome 100 (fun _ => false)).final_power = 100 ∧
    (cycleOutcome 100 (fun _ => false)).reached_target = true :=
  claim1_uninterrupted_run 100 (fun _ => false)
    (by norm_num [TransducerController.init])
    (by norm_num [TransducerController.init])
    (fun _ => rfl)

/-- C2: in a single run the printed progress values are strictly
increasing and never exceed the target, there is exactly one signal check
per print, and the run ends either with the final power at the target
(loop condition) or at the first check where the signal was observed
set. -/
theorem claim2_progress_monotone (t : ℚ) (sig : ℕ → Bool) (h0 : 0 ≤ t) :
    List.Chain' (fun a b => a < b) (simulate_transducer_operation t sig).progress ∧
    (∀ x ∈ (simulate_transducer_operation t sig).progress, x ≤ t) ∧
    (simulate_transducer_operation t sig).checks =
      (simulate_transducer_operation t sig).progress.length ∧
    (((simulate_transducer_operation t sig).brokeOnSignal = false ∧
        (simulate_transducer_operation t sig).final = t) ∨
      ((simulate_transducer_operation t sig).brokeOnSignal = true ∧
        sig (simulate_transducer_operation t sig).checks = true ∧
        ∀ j, j < (simulate_transducer_operation t sig).checks → sig j = false)) := by
  refine ⟨chain_progress t sig (fuelFor t) 0 0, ?_, ?_, ?_⟩
  · intro x hx
    exact (mem_progress t sig (fuelFor t) 0 0 x hx).2
  · have hce := checks_eq t sig (fuelFor t) 0 0
    simpa using hce
  · rcases Bool.eq_false_or_eq_true
        (simulate_transducer_operation t sig).brokeOnSignal with hbr | hbr
    · right
      rcases broke_sig t sig (fuelFor t) 0 0 hbr with ⟨ha, hfst⟩
      exact ⟨hbr, ha, fun j hj => hfst j (Nat.zero_le j) hj⟩
    · left
      refine ⟨hbr, ?_⟩
      have hdisj := loop_finished t sig t.num.toNat 0 0 (bound_from_zero t)
      have hle : t ≤ (simulate_transducer_operation t sig).final := by
        rcases hdisj with h | h
        · exact h
        · exact absurd
            (show (simulate_transducer_operation t sig).brokeOnSignal = true from h)
            (by simp [hbr])
      have hub : (simulate_transducer_operation t sig).final ≤ t :=
        (final_bounds t sig (fuelFor t) 0 0 le_rfl h0).2
      linarith

/-- Witness for C2 at target 25 with the never-set signal. -/
theorem claim2_witness :
    List.Chain' (fun a b => a < b)
      (simulate_transducer_operation 25 (fun _ => false)).progress ∧
    (∀ x ∈ (simulate_transducer_operation 25 (fun _ => false)).progress, x ≤ 25) ∧
    (simulate_transducer_operation 25 (fun _ => false)).checks =
      (simulate_transducer_operation 25 (fun _ => false)).progress.length ∧
    (((simulate_transducer_operation 25 (fun _ => false)).brokeOnSignal = false ∧
        (simulate_transducer_operation 25 (fun _ => false)).final = 25) ∨
      ((simulate_transducer_operation 25 (fun _ => false)).brokeOnSignal = true ∧
        (fun _ => false : ℕ → Bool)
            (simulate_transducer_operation 25 (fun _ => false)).checks = true ∧
        ∀ j, j < (simulate_transducer_operation 25 (fun _ => false)).checks →
          (fun _ => false : ℕ → Bool) j = false)) :=
  claim2_progress_monotone 25 (fun _ => false) (by norm_num)

set_option maxRecDepth 8000 in
/-- C3 counterexample: target 50 is accepted by validation, yet the very
first progress print of its uninterrupted run reports 10, which is neither
0 nor inside [MIN_POWER, MAX_POWER]: intermediate ramp values fall
strictly between 0 and MIN_POWER. -/
theorem claim3_counterexample :
    (validate_power_setting TransducerController.init 50).1 = true ∧
    (10:ℚ) ∈ (simulate_transducer_operation 50 (fun _ => false)).progress ∧
    ¬((10:ℚ) = 0 ∨ (TransducerController.init.MIN_POWER ≤ (10:ℚ) ∧
        (10:ℚ) ≤ TransducerController.init.MAX_POWER)) := by
  refine ⟨?_, ?_, ?_⟩
  · norm_num [validate_power_setting, TransducerController.init]
  · have hp : (simulate_transducer_operation 50 (fun _ => false)).progress
        = [10, 20, 30, 40, 50] := by
      norm_num [simulate_transducer_operation, fuelFor, rampLoop, power_increment]
    rw [hp]
    norm_num
  · norm_num [TransducerController.init]

/-- C3 amended: for every accepted target, all reported current-power
values lie in [0, MAX_POWER]: each progress print is strictly positive and
at most MAX_POWER, and the final power is nonnegative and at most
MAX_POWER — but intermediate prints may fall strictly between 0 and
MIN_POWER, so [min, max] ∪ {0} must be widened to [0, max]. -/
theorem claim3_reported_range (t : ℚ) (sig : ℕ → Bool)
    (h1 : TransducerController.init.MIN_POWER ≤ t)
    (h2 : t ≤ TransducerController.init.MAX_POWER) :
    (∀ x ∈ (simulate_transducer_operation t sig).progress,
        0 < x ∧ x ≤ TransducerController.init.MAX_POWER) ∧
    0 ≤ (simulate_transducer_operation t sig).final ∧
    (simulate_transducer_operation t sig).final ≤
      TransducerController.init.MAX_POWER := by
  have hmin : TransducerController.init.MIN_POWER = 50 := rfl
  have hmax : TransducerController.init.MAX_POWER = 5000 := rfl
  have h0 : (0:ℚ) ≤ t := by rw [hmin] at h1; linarith
  have hts : t ≤ 5000 := by rw [hmax] at h2; exact h2
  refine ⟨?_, ?_, ?_⟩
  · intro x hx
    rcases mem_progress t sig (fuelFor t) 0 0 x hx with ⟨hgt, hle⟩
    refine ⟨hgt, ?_⟩
    rw [hmax]
    linarith
  · exact (final_bounds t sig (fuelFor t) 0 0 le_rfl h0).1
  · have hub : (simulate_transducer_operation t sig).final ≤ t :=
      (final_bounds t sig (fuelFor t) 0 0 le_rfl h0).2
    rw [hmax]
    linarith

/-- Witness for the amended C3 at target 100 with the never-set signal. -/
theorem claim3_witness :
    (∀ x ∈ (simulate_transducer_operation 100 (fun _ => false)).progress,
        0 < x ∧ x ≤ TransducerController.init.MAX_POWER) ∧
    0 ≤ (simulate_transducer_operation 100 (fun _ => false)).final ∧
    (simulate_transducer_operation 100 (fun _ => false)).final ≤
      TransducerController.init.MAX_POWER :=
  claim3_reported_range 100 (fun _ => false)
    (by norm_num [TransducerController.init])
    (by norm_num [TransducerController.init])

/-- C9: the ramp loop never fails and always terminates, for every target:
the run exits either with the target reached (final power at or above the
target) or through the signal break, and giving the loop any fuel at or
beyond `fuelFor t` yields the same exit — the loop stops on its own,
after at most `fuelFor t` iterations, not because fuel ran out. -/
theorem claim9_termination (t : ℚ) (sig : ℕ → Bool) (fuel : ℕ)
    (hf : fuelFor t ≤ fuel) :
    (t ≤ (simulate_transducer_operation t sig).final ∨
      (simulate_transducer_operation t sig).brokeOnSignal = true) ∧
    rampLoop t sig fuel true 0 0 = simulate_transducer_operation t sig := by
  constructor
  · exact loop_finished t sig t.num.toNat 0 0 (bound_from_zero t)
  · obtain ⟨g, rfl⟩ : ∃ g, fuel = t.num.toNat + 1 + g :=
      ⟨fuel - (t.num.toNat + 1), by simp only [fuelFor] at hf; omega⟩
    exact fuel_stable t sig t.num.toNat 0 0 g (bound_from_zero t)

/-- Witness for C9 at target 25 with fuel 26. -/
theorem claim9_witness :
    ((25:ℚ) ≤ (simulate_transducer_operation 25 (fun _ => false)).final ∨
      (simulate_transducer_operation 25 (fun _ => false)).brokeOnSignal = true) ∧
    rampLoop 25 (fun _ => false) 26 true 0 0 =
      simulate_transducer_operation 25 (fun _ => false) :=
  claim9_termination 25 (fun _ => false) 26 (by norm_num [fuelFor]; decide)

/-- C4: if the first true signal observation of a run is index k and all
earlier checks happened strictly below target (the signal arrives during
the run), the loop performs exactly k increments and no more.  When the
signal arrives before the final step (10 * k < t), the run breaks with
final power 10 * k < t and the outcome has interrupted true; when it
arrives at the final step (t <= 10 * k), the run completes with final
power t, and reached_target and interrupted are both true. -/
theorem claim4_signal_stops_run (t : ℚ) (sig : ℕ → Bool) (k : ℕ)
    (h0 : 0 ≤ t) (hk : sig k = true)
    (hfirst : ∀ j, j < k → sig j = false)
    (hdur : ∀ j, j < k → 10 * (j:ℚ) < t) :
    (simulate_transducer_operation t sig).progress.length = k ∧
    (10 * (k:ℚ) < t →
      (simulate_transducer_operation t sig).brokeOnSignal = true ∧
      (simulate_transducer_operation t sig).final = 10 * (k:ℚ) ∧
      (simulate_transducer_operation t sig).final < t ∧
      (cycleOutcome t sig).interrupted = true) ∧
    (t ≤ 10 * (k:ℚ) →
      (simulate_transducer_operation t sig).final = t ∧
      (cycleOutcome t sig).reached_target = true ∧
      (cycleOutcome t sig).interrupted = true) := by
  have hdur' : ∀ j, j < k → power_increment * (j:ℚ) < t := by
    intro j hj
    rw [power_increment_eq]
    exact hdur j hj
  rcases lt_or_le (10 * (k:ℚ)) t with hcase | hcase
  · have hcase' : power_increment * (k:ℚ) < t := by
      rw [power_increment_eq]
      exact hcase
    have hkfuel : k < fuelFor t := by
      have hb := target_le_fuel_bound t
      rw [power_increment_eq] at hb
      have hx : (k:ℚ) < ((t.num.toNat:ℕ):ℚ) := by linarith
      have hx' : k < t.num.toNat := by exact_mod_cast hx
      simp only [fuelFor]
      omega
    have hrb := run_break t sig k hk hfirst hdur' hcase' k 0 (fuelFor t)
      (by omega) hkfuel
    rw [min_zero_target h0] at hrb
    have hline : (simulate_transducer_operation t sig).progress.length = k :=
      hrb.2.2.2
    have hfin : (simulate_transducer_operation t sig).final = 10 * (k:ℚ) := by
      have := hrb.1
      rw [power_increment_eq] at this
      exact this
    have hbk : (simulate_transducer_operation t sig).brokeOnSignal = true :=
      hrb.2.2.1
    have hck : (simulate_transducer_operation t sig).checks = k := hrb.2.1
    refine ⟨hline, ?_, ?_⟩
    · intro _
      refine ⟨hbk, hfin, by rw [hfin]; exact hcase, ?_⟩
      simp only [cycleOutcome]
      rw [hck]
      exact hk
    · intro hc2
      exact absurd hc2 (not_le.mpr hcase)
  · have hcase' : t ≤ power_increment * (k:ℚ) := by
      rw [power_increment_eq]
      exact hcase
    have hkfuel : k < fuelFor t := by
      rcases Nat.eq_zero_or_pos k with rfl | hkpos
      · simp only [fuelFor]
        omega
      · have h10 := hdur (k-1) (by omega)
        have hb := target_le_fuel_bound t
        rw [power_increment_eq] at hb
        have hcast : ((k-1:ℕ):ℚ) < ((t.num.toNat:ℕ):ℚ) := by
          have hkk : (((k-1):ℕ):ℚ) = (k:ℚ) - 1 := by
            push_cast [Nat.cast_sub hkpos]
            ring
          rw [hkk]
          have h1 : 10 * ((k:ℚ) - 1) < t := by
            rw [← hkk]
            exact h10
          linarith
        have hx' : k-1 < t.num.toNat := by exact_mod_cast hcast
        simp only [fuelFor]
        omega
    have hrc := run_complete t sig k hfirst hdur' hcase' k 0 (fuelFor t)
      (by omega) hkfuel
    rw [min_zero_target h0] at hrc
    have hfin : (simulate_transducer_operation t sig).final = t := hrc.1
    have hck : (simulate_transducer_operation t sig).checks = k := hrc.2.1
    have hline : (simulate_transducer_operation t sig).progress.length = k :=
      hrc.2.2.2
    refine ⟨hline, ?_, ?_⟩
    · intro hc1
      exact absurd hc1 (not_lt.mpr hcase)
    · intro _
      refine ⟨hfin, ?_, ?_⟩
      · simp [cycleOutcome, stop_transducer_report, hfin]
      · simp only [cycleOutcome]
        rw [hck]
        exact hk

/-- Witness for C4 at target 30, with the signal first observed set at
check index 1. -/
theorem claim4_witness :
    (simulate_transducer_operation 30 (fun j => decide (1 ≤ j))).progress.length = 1 ∧
    (10 * ((1:ℕ):ℚ) < 30 →
      (simulate_transducer_operation 30 (fun j => decide (1 ≤ j))).brokeOnSignal = true ∧
      (simulate_transducer_operation 30 (fun j => decide (1 ≤ j))).final = 10 * ((1:ℕ):ℚ) ∧
      (simulate_transducer_operation 30 (fun j => decide (1 ≤ j))).final < 30 ∧
      (cycleOutcome 30 (fun j => decide (1 ≤ j))).interrupted = true) ∧
    (30 ≤ 10 * ((1:ℕ):ℚ) →
      (simulate_transducer_operation 30 (fun j => decide (1 ≤ j))).final = 30 ∧
      (cycleOutcome 30 (fun j => decide (1 ≤ j))).reached_target = true ∧
      (cycleOutcome 30 (fun j => decide (1 ≤ j))).interrupted = true) :=
  claim4_signal_stops_run 30 (fun j => decide (1 ≤ j)) 1 (by norm_num) rfl
    (by
      intro j hj
      have hj0 : j = 0 := by omega
      subst hj0
      rfl)
    (by
      intro j hj
      have hj0 : j = 0 := by omega
      subst hj0
      norm_num)

/-- C10: for a positive target, the j-th progress print (0-indexed) of any
run equals min (10 * (j+1)) t; an uninterrupted run makes exactly
ceil(t/10) progress prints; and a run that broke on the signal ends with a
final power that is a whole multiple of the step size 10. -/
theorem claim10_step_values (t : ℚ) (sig : ℕ → Bool) (h0 : 0 < t) :
    (∀ j, j < (simulate_transducer_operation t sig).progress.length →
      (simulate_transducer_operation t sig).progress[j]? =
        some (min (10 * ((j:ℚ) + 1)) t)) ∧
    ((∀ j, sig j = false) →
      (simulate_transducer_operation t sig).progress.length = ⌈t / 10⌉₊) ∧
    ((simulate_transducer_operation t sig).brokeOnSignal = true →
      ∃ m : ℕ, (simulate_transducer_operation t sig).final = 10 * (m:ℚ)) := by
  refine ⟨?_, ?_, ?_⟩
  · intro j hj
    have hg := get_progress t sig (fuelFor t) 0 j
    rw [min_zero_target h0.le] at hg
    have hgj := hg hj
    have harith : (((0+j+1):ℕ):ℚ) = (j:ℚ) + 1 := by
      push_cast
      ring
    rw [power_increment_eq, harith] at hgj
    exact hgj
  · intro hs
    have hrc := run_complete t sig ⌈t/10⌉₊ (fun j _ => hs j)
        (fun j hj => lt_of_lt_ceil t j hj) (ceil_bound_le t) ⌈t/10⌉₊ 0 (fuelFor t)
        (by omega)
        (by have hcn := ceil_le_num t h0.le; simp only [fuelFor]; omega)
    rw [min_zero_target h0.le] at hrc
    exact hrc.2.2.2
  · intro hb
    have hbf := broke_final t sig (fuelFor t) 0
    rw [min_zero_target h0.le] at hbf
    have hfe := hbf hb
    rw [power_increment_eq] at hfe
    exact ⟨(simulate_transducer_operation t sig).checks, hfe⟩

/-- Witness for C10 at target 25 with the never-set signal. -/
theorem claim10_witness :
    (∀ j, j < (simulate_transducer_operation 25 (fun _ => false)).progress.length →
      (simulate_transducer_operation 25 (fun _ => false)).progress[j]? =
        some (min (10 * ((j:ℚ) + 1)) 25)) ∧
    ((∀ j, (fun _ => false : ℕ → Bool) j = false) →
      (simulate_transducer_operation 25 (fun _ => false)).progress.length =
        ⌈(25:ℚ) / 10⌉₊) ∧
    ((simulate_transducer_operation 25 (fun _ => false)).brokeOnSignal = true →
      ∃ m : ℕ, (simulate_transducer_operation 25 (fun _ => false)).final = 10 * (m:ℚ)) :=
  claim10_step_values 25 (fun _ => false) (by norm_num)
